import Mathlib

/-!
Verification of the SeanStash CLI history-sync pipeline (src/cli/seanstash.py).

The Python source is shallowly embedded below.  Pure string manipulation is
modelled over `List Char` (Python `str.strip`, `str.split`, slicing), the
filesystem and network are modelled as explicit inputs (`FileState`,
`ItemResponse`), and external library calls that the program treats as black
boxes (`hashlib.md5`, `re.search`, `datetime.now`, `os.getcwd`) are passed in
as function parameters.  The persisted ledger file `sent_history.json` is
modelled by `LedgerFile`; run operations return the post-state of that file.
-/

set_option autoImplicit false

universe u

/-- Python `str.strip()`: remove leading and trailing whitespace. -/
def pystrip (s : String) : String :=
  ⟨((s.data.dropWhile Char.isWhitespace).reverse.dropWhile Char.isWhitespace).reverse⟩

/-- Python `clean_line.startswith(": ")`. -/
def startsWithColonSpace (s : String) : Bool :=
  match s.data with
  | ':' :: ' ' :: _ => true
  | _ => false

/-- Python `";" in clean_line`. -/
def containsSemi (s : String) : Bool :=
  s.data.any (fun c => c == ';')

/-- Helper for Python `s.split(";", 1)[1]`: drop everything up to and
including the first semicolon. -/
def dropThroughFirstSemi : List Char → List Char
  | [] => []
  | c :: cs => if c = ';' then cs else dropThroughFirstSemi cs

/-- Python `clean_line.split(";", 1)[1]`: the substring after the first
semicolon (the whole zsh extended-format command, later semicolons kept). -/
def afterFirstSemi (s : String) : String :=
  ⟨dropThroughFirstSemi s.data⟩

/-- Per-line history parsing shared by `get_shell_history` (lines 82-91 of the
source) and `get_specific_history_commands` (lines 137-147): strip the line,
skip it when blank, take the part after the first `;` for zsh extended-format
lines starting with `": "`, and otherwise keep the whole stripped line. -/
def parseHistoryLine (line : String) : Option String :=
  let clean := pystrip line
  if clean.data = [] then none
  else if startsWithColonSpace clean && containsSemi clean then
    some (afterFirstSemi clean)
  else
    some clean

/-- State of one candidate history file: it may be absent, it may exist but
raise on read, or it may be readable with the given list of raw lines. -/
inductive FileState where
  | missing
  | unreadable
  | readable (lines : List String)
deriving DecidableEq

/-- Python slice `xs[-n:]` (note `xs[-0:]` is the whole list). -/
def pyTakeLast {α : Type u} (n : Nat) (xs : List α) : List α :=
  if n = 0 then xs else xs.drop (xs.length - n)

/-- The `for hist_file in history_files` loop of `get_shell_history`
(source lines 75-95): skip missing files, skip (with a warning) files whose
read raises, and on the first successful read parse the last `limit` lines
and stop; later candidates are never consulted. -/
def historyLoop (limit : Nat) : List FileState → List String
  | [] => []
  | FileState.missing :: rest => historyLoop limit rest
  | FileState.unreadable :: rest => historyLoop limit rest
  | FileState.readable lines :: _ =>
      (pyTakeLast limit lines).filterMap parseHistoryLine

/-- `SeanStashCLI.get_shell_history` (source lines 64-97).  `home` is the list
of states of the three candidate files, in the source's fixed priority order
`.zsh_history`, `.bash_history`, `.history`. -/
def get_shell_history (limit : Nat) (home : List FileState) : List String :=
  pyTakeLast limit (historyLoop limit home)

/-- Python `list(dict.fromkeys(xs))` in `run_sync` (source line 371):
deduplicate by exact text equality while preserving first-seen order. -/
def pyDedupAux : List String → List String → List String
  | [], _ => []
  | x :: xs, seen => if x ∈ seen then pyDedupAux xs seen else x :: pyDedupAux xs (x :: seen)

/-- Deduplication preserving first occurrences, as `list(dict.fromkeys(...))`. -/
def pyDedup (xs : List String) : List String :=
  pyDedupAux xs []

/-- Splitting a string on a single-character separator, every occurrence,
as Python `s.split(sep)` for a one-character `sep` (so `"".split(",") = [""]`
and a trailing separator yields a trailing empty part). -/
def splitOnCharAux (sep : Char) : List Char → List Char → List (List Char)
  | [], acc => [acc.reverse]
  | c :: cs, acc =>
      if c = sep then acc.reverse :: splitOnCharAux sep cs []
      else splitOnCharAux sep cs (c :: acc)

/-- Python `s.split(",")` (used on the configured exclusion-pattern string). -/
def pySplitComma (s : String) : List String :=
  (splitOnCharAux ',' s.data []).map (fun l => ⟨l⟩)

/-- Python `s.split("-")` (used on a `start-end` history range spec). -/
def pySplitDash (s : String) : List String :=
  (splitOnCharAux '-' s.data []).map (fun l => ⟨l⟩)

/-- The configuration snapshot consumed by the pipeline: the `filters` and
`behavior` sections of `config.ini` that the core reads. -/
structure SyncConfig where
  min_length : Nat
  exclude_patterns : String
  include_working_dir : Bool
  batch_size : Nat
  dry_run : Bool
deriving DecidableEq

/-- One processed command, as built by `filter_commands` (source lines
249-257): the stripped text, its md5 content hash, the capture timestamp, and
optionally the working directory. -/
structure CommandRecord where
  command : String
  hash : String
  timestamp : String
  working_dir : Option String
deriving DecidableEq

/-- The body of the `for cmd in commands` loop of `filter_commands` (source
lines 231-258) for one input command.  `reSearch p c` models
`re.search(p, c, re.IGNORECASE) is not None` and `md5` models
`hashlib.md5(cmd.encode()).hexdigest()`; both are external library calls.
`now` models `datetime.now().isoformat()` and `cwd` models `os.getcwd()`. -/
def filterStep (reSearch : String → String → Bool) (md5 : String → String)
    (cfg : SyncConfig) (now cwd : String) (cmd0 : String) : Option CommandRecord :=
  let cmd := pystrip cmd0
  if cmd.data.length < cfg.min_length then none
  else if (pySplitComma cfg.exclude_patterns).any (fun p => reSearch (pystrip p) cmd) then none
  else some { command := cmd, hash := md5 cmd, timestamp := now,
              working_dir := if cfg.include_working_dir then some cwd else none }

/-- `SeanStashCLI.filter_commands` (source lines 225-260). -/
def filter_commands (reSearch : String → String → Bool) (md5 : String → String)
    (cfg : SyncConfig) (now cwd : String) (commands : List String) : List CommandRecord :=
  commands.filterMap (filterStep reSearch md5 cfg now cwd)

/-- State of the persisted ledger file `sent_history.json`: absent, present
but failing to parse, or present with a set of sent hashes (the JSON stores a
list, which is read back through `set(...)`, so only the set matters). -/
inductive LedgerFile where
  | missing
  | corrupt
  | stored (sent_hashes : Finset String)
deriving DecidableEq

/-- `SeanStashCLI.load_sent_history` (source lines 262-271): a missing or
corrupt file is non-fatal and loads as the empty set. -/
def load_sent_history : LedgerFile → Finset String
  | LedgerFile.missing => ∅
  | LedgerFile.corrupt => ∅
  | LedgerFile.stored s => s

/-- `SeanStashCLI.save_sent_history` (source lines 273-283): write the hash
set back to the ledger file. -/
def save_sent_history (hashes : Finset String) : LedgerFile :=
  LedgerFile.stored hashes

/-- Outcome of one `requests.post` call: an HTTP status code, or a
`requests.exceptions.RequestException` raised by the transport. -/
inductive ItemResponse where
  | status (code : Nat)
  | exn
deriving DecidableEq

/-- Whether a transport response is counted as a success by the source
(line 341): Python `response.status_code in [200, 201]`. -/
def isSuccessStatus : ItemResponse → Bool
  | ItemResponse.status code => decide (code = 200 ∨ code = 201)
  | ItemResponse.exn => false

/-- Number of successes among the responses to posts `idx, ..., idx + n - 1`. -/
def successCount (t : Nat → ItemResponse) : Nat → Nat → Nat
  | _, 0 => 0
  | idx, n + 1 => (if isSuccessStatus (t idx) then 1 else 0) + successCount t (idx + 1) n

/-- Fuel-driven chunking; with `fuel ≥ xs.length` and `0 < bs` this yields
the consecutive batches `xs[0:bs], xs[bs:2*bs], ...`. -/
def chunkFuel {α : Type u} (bs : Nat) : Nat → List α → List (List α)
  | _, [] => []
  | 0, _ :: _ => []
  | fuel + 1, x :: xs => (x :: xs).take bs :: chunkFuel bs fuel ((x :: xs).drop bs)

/-- The batching `for i in range(0, len(snippets), batch_size)` of
`send_commands_to_seanstash` (source lines 326-327).  Python raises for
`batch_size = 0`; the model is only used with a positive batch size. -/
def chunkList {α : Type u} (bs : Nat) (xs : List α) : List (List α) :=
  chunkFuel bs xs.length xs

/-- The inner `for snippet in batch` loop (source lines 337-351): posts items
one at a time, counting an item as a success exactly when its status code is
200 or 201; any other status is logged and skipped.  Returns `none` when the
transport raises (which makes the whole function return `False`), otherwise
the next post index and the accumulated success count. -/
def sendBatchItems (t : Nat → ItemResponse) : List String → Nat → Nat → Option (Nat × Nat)
  | [], idx, sc => some (idx, sc)
  | _ :: rest, idx, sc =>
      match t idx with
      | ItemResponse.exn => none
      | ItemResponse.status code =>
          sendBatchItems t rest (idx + 1) (if code = 200 ∨ code = 201 then sc + 1 else sc)

/-- The outer batch loop of `send_commands_to_seanstash`: a transport
exception aborts the remaining batches, otherwise the success count is
accumulated across batches. -/
def sendAllBatches (t : Nat → ItemResponse) : List (List String) → Nat → Nat → Option Nat
  | [], _, sc => some sc
  | batch :: rest, idx, sc =>
      match sendBatchItems t batch idx sc with
      | none => none
      | some (idx2, sc2) => sendAllBatches t rest idx2 sc2

/-- The success count accumulated by the dry-run branch (source line 334):
`success_count += len(batch)` for every batch. -/
def dry_run_success_count (bs : Nat) (commands : List String) : Nat :=
  (chunkList bs commands).foldl (fun acc batch => acc + batch.length) 0

/-- `SeanStashCLI.send_commands_to_seanstash` (source lines 287-358), reduced
to the data the callers observe: the returned boolean.  `commands` is the list
of command texts (the `fragments[0].code` of each snippet — the only snippet
field that the delivery outcome can depend on; titles and descriptions are
presentation only).  `t i` is the transport response to the `i`-th post.  The
function returns `True` for an empty input, reports all items as succeeded in
dry-run mode without touching the transport, returns `False` when the
transport raises, and otherwise returns `success_count > 0`. -/
def send_commands_to_seanstash (dry_run : Bool) (bs : Nat) (t : Nat → ItemResponse)
    (commands : List String) : Bool :=
  if commands.isEmpty then true
  else if dry_run then decide (0 < dry_run_success_count bs commands)
  else
    match sendAllBatches t (chunkList bs commands) 0 0 with
    | none => false
    | some sc => decide (0 < sc)

/-- The history-gathering and filtering stage of `run_sync` (source lines
365-376): on-disk history, then session history, deduplicated in first-seen
order, then filtered.  `session` models the output of
`get_current_session_history` (an external `subprocess` call). -/
def sync_filtered_commands (reSearch : String → String → Bool) (md5 : String → String)
    (cfg : SyncConfig) (now cwd : String) (limit : Nat) (home : List FileState)
    (session : List String) : List CommandRecord :=
  let history_commands := get_shell_history limit home
  let all_commands := pyDedup (history_commands ++ session)
  filter_commands reSearch md5 cfg now cwd all_commands

/-- The dedup-partition stage of `run_sync` (source lines 378-386): with
`force` every filtered record is sent; otherwise records whose hash is already
in the loaded ledger are dropped. -/
def sync_new_commands (reSearch : String → String → Bool) (md5 : String → String)
    (cfg : SyncConfig) (now cwd : String) (limit : Nat) (force : Bool)
    (home : List FileState) (session : List String) (ledger : LedgerFile) :
    List CommandRecord :=
  let filtered := sync_filtered_commands reSearch md5 cfg now cwd limit home session
  if force then filtered
  else filtered.filter (fun c => decide (c.hash ∉ load_sent_history ledger))

/-- `SeanStashCLI.run_sync` (source lines 360-400), as a transformer of the
persisted ledger file.  Note the source's force branch: it initialises the
in-memory `sent_hashes` to the empty set instead of the loaded ledger, so a
successful forced run overwrites the ledger file with only this run's hashes. -/
def run_sync (reSearch : String → String → Bool) (md5 : String → String)
    (cfg : SyncConfig) (now cwd : String) (t : Nat → ItemResponse) (limit : Nat)
    (force : Bool) (home : List FileState) (session : List String)
    (ledger : LedgerFile) : LedgerFile :=
  let new_commands := sync_new_commands reSearch md5 cfg now cwd limit force home session ledger
  if new_commands.isEmpty then ledger
  else
    let success := send_commands_to_seanstash cfg.dry_run cfg.batch_size t
      (new_commands.map CommandRecord.command)
    if success && !cfg.dry_run then
      let sent_hashes := if force then (∅ : Finset String) else load_sent_history ledger
      save_sent_history (sent_hashes ∪ (new_commands.map CommandRecord.hash).toFinset)
    else ledger

/-- Python `history_spec.lstrip("!")` (source line 124). -/
def pyLstripBang (s : String) : String :=
  ⟨s.data.dropWhile (fun c => c == '!')⟩

/-- Decimal digit value of a character, `none` for non-digits. -/
def digitVal (c : Char) : Option Nat :=
  if c.isDigit then some (c.toNat - 48) else none

/-- Read a non-empty all-digit character list as a natural number. -/
def digitsToNatAux : List Char → Nat → Option Nat
  | [], acc => some acc
  | c :: cs, acc =>
      match digitVal c with
      | none => none
      | some d => digitsToNatAux cs (acc * 10 + d)

/-- Python `int(s)` on the pieces of a history spec: surrounding whitespace is
ignored, an optional single sign is allowed, then at least one digit (numeric
underscores and non-ASCII digits are not modelled; the specs of interest are
plain decimal numbers).  `none` models `ValueError`. -/
def pyInt (s : String) : Option Int :=
  match (pystrip s).data with
  | [] => none
  | '-' :: ds =>
      if ds = [] then none
      else (digitsToNatAux ds 0).map (fun n => -(n : Int))
  | '+' :: ds =>
      if ds = [] then none
      else (digitsToNatAux ds 0).map (fun n => (n : Int))
  | ds => (digitsToNatAux ds 0).map (fun n => (n : Int))

/-- The entries of `history_dict` (source lines 166-169) starting at line
number `st`: command `k` of `recent` gets key `st + k`. -/
def window_entries_from (st : Nat) : List String → List (Nat × String)
  | [] => []
  | c :: cs => (st, c) :: window_entries_from (st + 1) cs

/-- The line-numbered window over a parsed history (source lines 158-169):
the last 800 commands, keyed consecutively so that the newest command gets
the total count as its line number and the oldest retained entry gets
`max 1 (total - 800 + 1)`. -/
def window_entries (all_commands : List String) : List (Nat × String) :=
  let total := all_commands.length
  let start_line := max 1 (total - 800 + 1)
  window_entries_from start_line (all_commands.drop (total - 800))

/-- Dictionary lookup `i in history_dict` / `history_dict[i]` over the window
entries (the requested line may be any integer from the parsed spec). -/
def dictGet (entries : List (Nat × String)) (i : Int) : Option String :=
  match entries with
  | [] => none
  | (k, c) :: rest => if (k : Int) = i then some c else dictGet rest i

/-- Python `range(start, end + 1)` over integers, as a list. -/
def intRange (s e : Int) : List Int :=
  (List.range (e + 1 - s).toNat).map (fun (k : Nat) => s + (k : Int))

/-- Parsing `start, end = map(int, spec.split("-"))` (source line 187):
`none` models the `ValueError` branch (wrong number of parts, or a part that
is not an integer), which makes the call return no commands. -/
def parseRangeSpec (spec : String) : Option (Int × Int) :=
  match pySplitDash spec with
  | [a, b] =>
      match pyInt a, pyInt b with
      | some s, some e => some (s, e)
      | _, _ => none
  | _ => none

/-- The commands of the window whose line number lies in `[s, e]`, in window
(ascending line-number) order.  Used to state what range resolution returns. -/
def entriesInRange (s e : Int) (entries : List (Nat × String)) : List String :=
  entries.filterMap
    (fun p => if s ≤ (p.1 : Int) ∧ (p.1 : Int) ≤ e then some p.2 else none)

/-- `SeanStashCLI.get_specific_history_commands` (source lines 120-223).
`zsh_history` is the state of the single file this function reads.  A missing
file, an unreadable file, an empty parsed history, a malformed spec, or a
single line number absent from the window all produce the empty (failed)
result; a range spec collects the commands at `range(start, end + 1)` that
are present in the window, skipping absent lines. -/
def get_specific_history_commands (history_spec : String) (zsh_history : FileState) :
    List String :=
  let spec := pyLstripBang history_spec
  match zsh_history with
  | FileState.missing => []
  | FileState.unreadable => []
  | FileState.readable lines =>
    let all_commands := lines.filterMap parseHistoryLine
    if all_commands.isEmpty then []
    else
      let entries := window_entries all_commands
      if spec.data.any (fun c => c == '-') then
        match parseRangeSpec spec with
        | none => []
        | some (s, e) => (intRange s e).filterMap (dictGet entries)
      else
        match pyInt spec with
        | none => []
        | some n =>
            match dictGet entries n with
            | some c => [c]
            | none => []

/-! ### Concrete example inputs (used to exercise the theorems below) -/

/-- Example exclusion matcher: no pattern matches anything. -/
def exRe : String → String → Bool := fun _ _ => false

/-- Example content-hash function (any deterministic function works here). -/
def exMd5 : String → String := fun s => s

/-- Example configuration with delivery enabled. -/
def exCfg : SyncConfig :=
  { min_length := 3, exclude_patterns := "xx", include_working_dir := false,
    batch_size := 10, dry_run := false }

/-- Example configuration with the dry-run flag set. -/
def exCfgDry : SyncConfig :=
  { min_length := 3, exclude_patterns := "xx", include_working_dir := false,
    batch_size := 10, dry_run := true }

/-- Example home directory: a readable zsh history and no other files. -/
def exHome : List FileState :=
  [FileState.readable ["abcdef", "ghijkl"], FileState.missing, FileState.missing]

/-- Example transport that accepts every post. -/
def exT200 : Nat → ItemResponse := fun _ => ItemResponse.status 200

/-- Example transport where the first post succeeds and the rest soft-fail. -/
def exTmix : Nat → ItemResponse :=
  fun i => if i = 0 then ItemResponse.status 201 else ItemResponse.status 500

/-- Example transport answering 200, then 401, then 204 to successive posts. -/
def exT3 : Nat → ItemResponse :=
  fun i => if i = 0 then ItemResponse.status 200
    else if i = 1 then ItemResponse.status 401 else ItemResponse.status 204

/-! ### Helper lemmas -/

theorem filter_eq_nil_of_forall {α : Type u} {p : α → Bool} :
    ∀ {l : List α}, (∀ a ∈ l, p a = false) → l.filter p = []
  | [], _ => rfl
  | a :: l, h => by
      have ha := h a (List.mem_cons_self a l)
      simp only [List.filter_cons, ha, Bool.false_eq_true, if_false]
      exact filter_eq_nil_of_forall (fun b hb => h b (List.mem_cons_of_mem a hb))

theorem forall_of_filter_eq_nil {α : Type u} {p : α → Bool} :
    ∀ {l : List α}, l.filter p = [] → ∀ a ∈ l, p a = false := by
  intro l
  induction l with
  | nil => intro _ a ha; cases ha
  | cons b l ih =>
      intro h a ha
      by_cases hb : p b = true
      · rw [List.filter_cons_of_pos hb] at h; cases h
      · rw [List.filter_cons_of_neg hb] at h
        rcases List.mem_cons.1 ha with rfl | ha2
        · exact Bool.eq_false_iff.2 hb
        · exact ih h a ha2

theorem filterMap_eq_nil_of_forall {α β : Type u} {f : α → Option β} :
    ∀ {l : List α}, (∀ a ∈ l, f a = none) → l.filterMap f = []
  | [], _ => rfl
  | a :: l, h => by
      have ha := h a (List.mem_cons_self a l)
      simp only [List.filterMap_cons, ha]
      exact filterMap_eq_nil_of_forall (fun b hb => h b (List.mem_cons_of_mem a hb))

theorem filterStep_hash_eq (reSearch : String → String → Bool) (md5 : String → String)
    (cfg : SyncConfig) (now1 cwd1 now2 cwd2 cmd0 : String) :
    Option.map CommandRecord.hash (filterStep reSearch md5 cfg now1 cwd1 cmd0)
      = Option.map CommandRecord.hash (filterStep reSearch md5 cfg now2 cwd2 cmd0) := by
  simp only [filterStep]
  split_ifs <;> rfl

theorem filter_commands_map_hash (reSearch : String → String → Bool) (md5 : String → String)
    (cfg : SyncConfig) (now1 cwd1 now2 cwd2 : String) :
    ∀ cmds : List String,
      (filter_commands reSearch md5 cfg now1 cwd1 cmds).map CommandRecord.hash
        = (filter_commands reSearch md5 cfg now2 cwd2 cmds).map CommandRecord.hash := by
  intro cmds
  induction cmds with
  | nil => rfl
  | cons c cs ih =>
      have hstep := filterStep_hash_eq reSearch md5 cfg now1 cwd1 now2 cwd2 c
      simp only [filter_commands] at ih ⊢
      simp only [List.filterMap_cons]
      cases h1 : filterStep reSearch md5 cfg now1 cwd1 c with
      | none =>
          rw [h1] at hstep
          cases h2 : filterStep reSearch md5 cfg now2 cwd2 c with
          | none => exact ih
          | some r2 => rw [h2] at hstep; cases hstep
      | some r1 =>
          rw [h1] at hstep
          cases h2 : filterStep reSearch md5 cfg now2 cwd2 c with
          | none => rw [h2] at hstep; cases hstep
          | some r2 =>
              rw [h2] at hstep
              simp only [Option.map_some', Option.some.injEq] at hstep
              simp only [List.map_cons, ih, hstep]

theorem chunkFuel_foldl_length {α : Type u} (bs : Nat) (hbs : 0 < bs) :
    ∀ (fuel : Nat) (xs : List α), xs.length ≤ fuel →
      ∀ acc, (chunkFuel bs fuel xs).foldl (fun a b => a + b.length) acc = acc + xs.length := by
  intro fuel
  induction fuel with
  | zero =>
      intro xs hxs acc
      have : xs = [] := List.eq_nil_of_length_eq_zero (Nat.le_zero.1 hxs)
      subst this
      rfl
  | succ fuel ih =>
      intro xs hxs acc
      cases xs with
      | nil => rfl
      | cons x l =>
          simp only [chunkFuel, List.foldl_cons]
          have hlen : ((x :: l).drop bs).length ≤ fuel := by
            simp only [List.length_drop, List.length_cons]
            simp only [List.length_cons] at hxs
            omega
          rw [ih ((x :: l).drop bs) hlen]
          simp only [List.length_take, List.length_drop, List.length_cons]
          omega

theorem dry_run_success_count_eq_length (bs : Nat) (hbs : 0 < bs) (commands : List String) :
    dry_run_success_count bs commands = commands.length := by
  unfold dry_run_success_count chunkList
  rw [chunkFuel_foldl_length bs hbs commands.length commands (Nat.le_refl _)]
  omega

theorem successCount_add (t : Nat → ItemResponse) :
    ∀ (a idx b : Nat), successCount t idx (a + b) = successCount t idx a + successCount t (idx + a) b := by
  intro a
  induction a with
  | zero => intro idx b; simp [successCount]
  | succ a ih =>
      intro idx b
      have h1 : a + 1 + b = (a + b) + 1 := by omega
      rw [h1]
      show (if isSuccessStatus (t idx) then 1 else 0) + successCount t (idx + 1) (a + b) = _
      rw [ih (idx + 1) b]
      show _ = (if isSuccessStatus (t idx) then 1 else 0) + successCount t (idx + 1) a + successCount t (idx + (a + 1)) b
      have h2 : idx + 1 + a = idx + (a + 1) := by omega
      rw [h2]
      omega

theorem sendBatchItems_no_exn (t : Nat → ItemResponse) :
    ∀ (items : List String) (idx sc : Nat),
      (∀ j, j < items.length → t (idx + j) ≠ ItemResponse.exn) →
      sendBatchItems t items idx sc
        = some (idx + items.length, sc + successCount t idx items.length) := by
  intro items
  induction items with
  | nil => intro idx sc _; simp [sendBatchItems, successCount]
  | cons item rest ih =>
      intro idx sc h
      have h0 : t idx ≠ ItemResponse.exn := by
        have := h 0 (by simp)
        simpa using this
      cases ht : t idx with
      | exn => exact absurd ht h0
      | status code =>
          have hrest : ∀ j, j < rest.length → t (idx + 1 + j) ≠ ItemResponse.exn := by
            intro j hj
            have := h (j + 1) (by simpa using Nat.succ_lt_succ hj)
            have harg : idx + (j + 1) = idx + 1 + j := by omega
            rwa [harg] at this
          have hbranch : (if code = 200 ∨ code = 201 then sc + 1 else sc)
              = sc + (if isSuccessStatus (ItemResponse.status code) then 1 else 0) := by
            by_cases hc : code = 200 ∨ code = 201 <;> simp [isSuccessStatus, hc]
          have hcount : successCount t idx (rest.length + 1)
              = (if isSuccessStatus (ItemResponse.status code) then 1 else 0)
                + successCount t (idx + 1) rest.length := by
            show (if isSuccessStatus (t idx) then 1 else 0) + _ = _
            rw [ht]
          simp only [sendBatchItems, ht]
          rw [hbranch, ih (idx + 1) _ hrest]
          simp only [List.length_cons, hcount, Option.some.injEq, Prod.mk.injEq]
          exact ⟨by omega, by omega⟩

theorem sendAllBatches_no_exn (t : Nat → ItemResponse) :
    ∀ (batches : List (List String)) (idx sc : Nat),
      (∀ j, j < ((batches.map List.length).sum) → t (idx + j) ≠ ItemResponse.exn) →
      sendAllBatches t batches idx sc
        = some (sc + successCount t idx ((batches.map List.length).sum)) := by
  intro batches
  induction batches with
  | nil => intro idx sc _; simp [sendAllBatches, successCount]
  | cons batch rest ih =>
      intro idx sc h
      simp only [List.map_cons, List.sum_cons] at h ⊢
      have hbatch : ∀ j, j < batch.length → t (idx + j) ≠ ItemResponse.exn :=
        fun j hj => h j (by omega)
      simp only [sendAllBatches, sendBatchItems_no_exn t batch idx sc hbatch]
      rw [ih (idx + batch.length) _ (fun j hj => by
        have := h (batch.length + j) (by omega)
        have harg : idx + (batch.length + j) = idx + batch.length + j := by omega
        rwa [harg] at this)]
      rw [successCount_add t batch.length idx ((rest.map List.length).sum)]
      simp only [Option.some.injEq]
      omega

theorem chunkFuel_sum_length {α : Type u} (bs : Nat) (hbs : 0 < bs) :
    ∀ (fuel : Nat) (xs : List α), xs.length ≤ fuel →
      ((chunkFuel bs fuel xs).map List.length).sum = xs.length := by
  intro fuel
  induction fuel with
  | zero =>
      intro xs hxs
      have : xs = [] := List.eq_nil_of_length_eq_zero (Nat.le_zero.1 hxs)
      subst this
      rfl
  | succ fuel ih =>
      intro xs hxs
      cases xs with
      | nil => rfl
      | cons x l =>
          simp only [chunkFuel, List.map_cons, List.sum_cons]
          have hlen : ((x :: l).drop bs).length ≤ fuel := by
            simp only [List.length_drop, List.length_cons]
            simp only [List.length_cons] at hxs
            omega
          rw [ih ((x :: l).drop bs) hlen]
          simp only [List.length_take, List.length_drop, List.length_cons]
          omega

theorem window_entries_from_length :
    ∀ (rec : List String) (st : Nat), (window_entries_from st rec).length = rec.length := by
  intro rec
  induction rec with
  | nil => intro st; rfl
  | cons c cs ih => intro st; simp [window_entries_from, ih (st + 1)]

theorem window_entries_from_map_fst :
    ∀ (rec : List String) (st : Nat),
      (window_entries_from st rec).map Prod.fst
        = (List.range rec.length).map (fun k => st + k) := by
  intro rec
  induction rec with
  | nil => intro st; rfl
  | cons c cs ih =>
      intro st
      simp only [window_entries_from, List.map_cons, List.length_cons,
        List.range_succ_eq_map, List.map_map]
      rw [ih (st + 1)]
      refine congrArg (fun l => (st, c).1 :: l) ?_
      refine List.map_congr_left ?_
      intro a _
      simp [Function.comp]
      omega

theorem entriesInRange_nil_of_gt (s e : Int) (hgt : e < s) :
    ∀ entries : List (Nat × String), entriesInRange s e entries = [] := by
  intro entries
  induction entries with
  | nil => rfl
  | cons p rest ih =>
      simp only [entriesInRange, List.filterMap_cons] at ih ⊢
      have hcond : ¬(s ≤ (p.1 : Int) ∧ (p.1 : Int) ≤ e) := by omega
      rw [if_neg hcond]
      exact ih

theorem dictGet_none_of_lt (s : Int) :
    ∀ (rec : List String) (st : Nat), s < (st : Int) →
      dictGet (window_entries_from st rec) s = none := by
  intro rec
  induction rec with
  | nil => intro st _; rfl
  | cons c cs ih =>
      intro st hlt
      simp only [window_entries_from, dictGet]
      have hne : ¬((st : Int) = s) := by omega
      rw [if_neg hne]
      exact ih (st + 1) (by omega)

theorem entriesInRange_shift (s e : Int) :
    ∀ (rec : List String) (st : Nat), s < (st : Int) →
      entriesInRange s e (window_entries_from st rec)
        = entriesInRange (s + 1) e (window_entries_from st rec) := by
  intro rec
  induction rec with
  | nil => intro st _; rfl
  | cons c cs ih =>
      intro st hlt
      simp only [window_entries_from, entriesInRange, List.filterMap_cons] at ih ⊢
      have h1 : (s ≤ (st : Int) ∧ (st : Int) ≤ e) ↔ (s + 1 ≤ (st : Int) ∧ (st : Int) ≤ e) := by
        constructor
        · intro hc; exact ⟨by omega, hc.2⟩
        · intro hc; exact ⟨by omega, hc.2⟩
      by_cases hc : (st : Int) ≤ e
      · rw [if_pos ⟨by omega, hc⟩, if_pos ⟨by omega, hc⟩]
        rw [ih (st + 1) (by omega)]
      · rw [if_neg (by omega), if_neg (by omega)]
        exact ih (st + 1) (by omega)

theorem entriesInRange_head_split (e : Int) :
    ∀ (rec : List String) (st : Nat) (s : Int), s ≤ e →
      entriesInRange s e (window_entries_from st rec)
        = (match dictGet (window_entries_from st rec) s with
           | some c => c :: entriesInRange (s + 1) e (window_entries_from st rec)
           | none => entriesInRange (s + 1) e (window_entries_from st rec)) := by
  intro rec
  induction rec with
  | nil => intro st s _; rfl
  | cons c cs ih =>
      intro st s hse
      rcases lt_trichotomy (s : Int) (st : Int) with hlt | heq | hgt
      · rw [dictGet_none_of_lt s (c :: cs) st hlt]
        exact entriesInRange_shift s e (c :: cs) st hlt
      · simp only [window_entries_from, dictGet, entriesInRange, List.filterMap_cons]
        rw [if_pos heq.symm]
        rw [if_pos ⟨by omega, by omega⟩]
        rw [if_neg (by omega)]
        refine congrArg (fun l => c :: l) ?_
        exact entriesInRange_shift s e cs (st + 1) (by omega)
      · simp only [window_entries_from, dictGet, entriesInRange, List.filterMap_cons]
        rw [if_neg (by omega : ¬((st : Int) = s))]
        rw [if_neg (by omega : ¬(s ≤ (st : Int) ∧ (st : Int) ≤ e))]
        rw [if_neg (by omega : ¬(s + 1 ≤ (st : Int) ∧ (st : Int) ≤ e))]
        have := ih (st + 1) s hse
        simp only [entriesInRange] at this
        exact this

theorem intRange_nil_of_gt (s e : Int) (hgt : e < s) : intRange s e = [] := by
  unfold intRange
  have : (e + 1 - s).toNat = 0 := by omega
  rw [this]
  rfl

theorem intRange_cons (s e : Int) (hse : s ≤ e) :
    intRange s e = s :: intRange (s + 1) e := by
  unfold intRange
  have h1 : (e + 1 - s).toNat = (e + 1 - (s + 1)).toNat + 1 := by omega
  rw [h1, List.range_succ_eq_map]
  simp only [List.map_cons, List.map_map, Nat.cast_zero, add_zero]
  refine congrArg (fun l => s :: l) ?_
  refine List.map_congr_left ?_
  intro a _
  simp only [Function.comp_apply]
  push_cast
  omega

theorem range_filterMap_dictGet (e : Int) :
    ∀ (n : Nat) (s : Int), (e + 1 - s).toNat = n →
      ∀ (st : Nat) (rec : List String),
        (intRange s e).filterMap (dictGet (window_entries_from st rec))
          = entriesInRange s e (window_entries_from st rec) := by
  intro n
  induction n with
  | zero =>
      intro s hn st rec
      have hgt : e < s := by omega
      rw [intRange_nil_of_gt s e hgt, entriesInRange_nil_of_gt s e hgt]
      rfl
  | succ n ih =>
      intro s hn st rec
      have hse : s ≤ e := by omega
      rw [intRange_cons s e hse, List.filterMap_cons,
        entriesInRange_head_split e rec st s hse,
        ih (s + 1) (by omega) st rec]
      cases dictGet (window_entries_from st rec) s <;> rfl

theorem exists_semi_split :
    ∀ l : List Char, l.any (fun c => c == ';') = true →
      ∃ pre : List Char, ';' ∉ pre ∧ l = pre ++ ';' :: dropThroughFirstSemi l := by
  intro l
  induction l with
  | nil => intro h; cases h
  | cons c cs ih =>
      intro h
      by_cases hc : c = ';'
      · subst hc
        refine ⟨[], by simp, ?_⟩
        simp [dropThroughFirstSemi]
      · have h2 : cs.any (fun d => d == ';') = true := by
          simp only [List.any_cons, Bool.or_eq_true] at h
          rcases h with hl | hr
          · exact absurd (by simpa using hl) hc
          · exact hr
        obtain ⟨pre, hp, he⟩ := ih h2
        refine ⟨c :: pre, ?_, ?_⟩
        · intro hmem
          rcases List.mem_cons.1 hmem with heq | hmem2
          · exact hc heq.symm
          · exact hp hmem2
        · simp only [dropThroughFirstSemi, if_neg hc, List.cons_append]
          exact congrArg (fun l0 => c :: l0) he

theorem nil_mem_splitOnCharAux_concat (sep : Char) :
    ∀ (l acc : List Char), [] ∈ splitOnCharAux sep (l ++ [sep]) acc := by
  intro l
  induction l with
  | nil =>
      intro acc
      simp [splitOnCharAux]
  | cons c cs ih =>
      intro acc
      by_cases hc : c = sep
      · subst hc
        simp only [List.cons_append, splitOnCharAux, if_pos rfl]
        exact List.mem_cons_of_mem _ (ih [])
      · simp only [List.cons_append, splitOnCharAux, if_neg hc]
        exact ih (c :: acc)

/-! ### Claims -/

/-- C9: in recent-N mode the candidate history files are consulted in the
fixed priority order zsh, bash, plain history; the first file that exists and
reads without an exception is used and later candidates are never consulted
(even when the used file parses to zero commands), while a missing file or a
file whose read raises is skipped and the next candidate is tried. -/
theorem C9_history_file_priority (limit : Nat) :
    (∀ (lines : List String) (rest1 rest2 : List FileState),
      get_shell_history limit (FileState.readable lines :: rest1)
        = get_shell_history limit (FileState.readable lines :: rest2))
    ∧ (∀ rest : List FileState,
        get_shell_history limit (FileState.unreadable :: rest) = get_shell_history limit rest)
    ∧ (∀ rest : List FileState,
        get_shell_history limit (FileState.missing :: rest) = get_shell_history limit rest)
    ∧ (∀ (lines : List String) (rest : List FileState),
        get_shell_history limit (FileState.readable lines :: rest)
          = pyTakeLast limit ((pyTakeLast limit lines).filterMap parseHistoryLine)) :=
  ⟨fun _ _ _ => rfl, fun _ => rfl, fun _ => rfl, fun _ _ => rfl⟩

/-- C6: per-line history parsing: a whitespace-only line yields no command; a
stripped line beginning with ": " and containing ";" yields the substring
after the first ";" (the metadata before it is discarded); any other
non-blank line yields the whole stripped line; and in particular the line
": 1690000000:0;git status" yields "git status". -/
theorem C6_line_parsing :
    (∀ line : String, (pystrip line).data = [] → parseHistoryLine line = none)
    ∧ (∀ line : String, startsWithColonSpace (pystrip line) = true →
        containsSemi (pystrip line) = true →
        ∃ (pre : List Char) (cmd : String), parseHistoryLine line = some cmd ∧
          ';' ∉ pre ∧ (pystrip line).data = pre ++ ';' :: cmd.data)
    ∧ (∀ line : String, (pystrip line).data ≠ [] →
        (startsWithColonSpace (pystrip line) = false ∨ containsSemi (pystrip line) = false) →
        parseHistoryLine line = some (pystrip line))
    ∧ parseHistoryLine ": 1690000000:0;git status" = some "git status" := by
  refine ⟨?_, ?_, ?_, by decide⟩
  · intro line h
    simp only [parseHistoryLine]
    rw [if_pos h]
  · intro line h1 h2
    have hne : (pystrip line).data ≠ [] := by
      intro h0
      unfold startsWithColonSpace at h1
      rw [h0] at h1
      cases h1
    have hres : parseHistoryLine line = some (afterFirstSemi (pystrip line)) := by
      simp only [parseHistoryLine]
      rw [if_neg hne, if_pos (by rw [h1, h2]; rfl)]
    obtain ⟨pre, hp, he⟩ := exists_semi_split (pystrip line).data h2
    exact ⟨pre, afterFirstSemi (pystrip line), hres, hp, he⟩
  · intro line hne hcase
    simp only [parseHistoryLine]
    rw [if_neg hne]
    rcases hcase with h | h
    · rw [if_neg (by simp [h])]
    · rw [if_neg (by simp [h])]

/-- C6 witness: the three parsing behaviours at concrete lines. -/
theorem C6_line_parsing_witness :
    parseHistoryLine "   " = none
    ∧ (∃ (pre : List Char) (cmd : String),
        parseHistoryLine ": 1690000000:0;git status" = some cmd ∧
          ';' ∉ pre ∧ (pystrip ": 1690000000:0;git status").data = pre ++ ';' :: cmd.data)
    ∧ parseHistoryLine "git st" = some (pystrip "git st") :=
  ⟨C6_line_parsing.1 "   " (by decide),
   C6_line_parsing.2.1 ": 1690000000:0;git status" (by decide) (by decide),
   C6_line_parsing.2.2.1 "git st" (by decide) (by decide)⟩

/-- C10: the exclusion pattern list is the comma-split of the configured
string with each part stripped before use, so an empty configured string
splits to the single empty pattern and a trailing comma contributes an empty
pattern; since Python re.search with the empty pattern matches every string
(the hypothesis on the matcher), any configuration whose split contains the
empty pattern makes the filter stage discard every input command. -/
theorem C10_empty_pattern_discards_all (reSearch : String → String → Bool)
    (md5 : String → String) (hre : ∀ s : String, reSearch "" s = true) :
    pySplitComma "" = [""]
    ∧ (∀ s : String, "" ∈ pySplitComma (s ++ ","))
    ∧ (∀ (cfg : SyncConfig) (now cwd : String) (cmds : List String),
        "" ∈ pySplitComma cfg.exclude_patterns →
        filter_commands reSearch md5 cfg now cwd cmds = []) := by
  refine ⟨rfl, ?_, ?_⟩
  · intro s
    unfold pySplitComma
    have hdata : (s ++ ",").data = s.data ++ [','] := by
      rw [String.data_append]
    rw [hdata]
    exact List.mem_map.2 ⟨[], nil_mem_splitOnCharAux_concat ',' s.data [], by decide⟩
  · intro cfg now cwd cmds hmem
    refine filterMap_eq_nil_of_forall ?_
    intro c _
    simp only [filterStep]
    split_ifs with h1 h2
    · rfl
    · rfl
    · exfalso
      apply h2
      refine List.any_eq_true.2 ⟨"", hmem, ?_⟩
      have hstrip : pystrip "" = "" := rfl
      rw [hstrip, hre]

/-- C10 witness: with a matcher satisfying the empty-pattern law and a
configured exclusion list ending in a comma, a long non-matching command is
still discarded and the filter output is empty. -/
theorem C10_empty_pattern_discards_all_witness :
    filter_commands (fun p _ => decide (p = "")) (fun s => s)
      { min_length := 3, exclude_patterns := "cd,ls,", include_working_dir := false,
        batch_size := 10, dry_run := false } "now" "dir" ["kubectl get pods"] = [] :=
  (C10_empty_pattern_discards_all (fun p _ => decide (p = "")) (fun s => s)
      (fun _ => rfl)).2.2
    { min_length := 3, exclude_patterns := "cd,ls,", include_working_dir := false,
      batch_size := 10, dry_run := false } "now" "dir" ["kubectl get pods"] (by decide)

/-- C8: when the dry-run flag is set the delivery phase is independent of the
transport (it makes no post), its success count equals the total count, and a
run leaves the persisted ledger file unchanged. -/
theorem C8_dry_run_frame (reSearch : String → String → Bool) (md5 : String → String)
    (cfg : SyncConfig) (now cwd : String) (t1 t2 : Nat → ItemResponse) (limit : Nat)
    (force : Bool) (home : List FileState) (session : List String) (ledger : LedgerFile)
    (cmds : List String) (hdry : cfg.dry_run = true) (hbs : 0 < cfg.batch_size) :
    send_commands_to_seanstash cfg.dry_run cfg.batch_size t1 cmds
      = send_commands_to_seanstash cfg.dry_run cfg.batch_size t2 cmds
    ∧ dry_run_success_count cfg.batch_size cmds = cmds.length
    ∧ run_sync reSearch md5 cfg now cwd t1 limit force home session ledger = ledger := by
  refine ⟨?_, dry_run_success_count_eq_length cfg.batch_size hbs cmds, ?_⟩
  · rw [hdry]
    simp [send_commands_to_seanstash]
  · simp [run_sync, hdry]

/-- C8 witness: a concrete dry run reports all three items as succeeded and
does not touch the missing ledger file. -/
theorem C8_dry_run_frame_witness :
    exCfgDry.dry_run = true ∧ 0 < exCfgDry.batch_size
    ∧ dry_run_success_count exCfgDry.batch_size ["aaa", "bbb", "ccc"]
        = (["aaa", "bbb", "ccc"] : List String).length
    ∧ run_sync exRe exMd5 exCfgDry "t" "d" exT200 50 false exHome [] LedgerFile.missing
        = LedgerFile.missing :=
  ⟨rfl, by decide,
   (C8_dry_run_frame exRe exMd5 exCfgDry "t" "d" exT200 exT200 50 false exHome []
      LedgerFile.missing ["aaa", "bbb", "ccc"] rfl (by decide)).2.1,
   (C8_dry_run_frame exRe exMd5 exCfgDry "t" "d" exT200 exT200 50 false exHome []
      LedgerFile.missing ["aaa", "bbb", "ccc"] rfl (by decide)).2.2⟩

/-- C5: for a non-empty parsed history of length total, the line-numbered
window has exactly min total 800 entries, its keys are the consecutive
integers from max 1 (total - 800 + 1) up to total (so the newest command gets
key total), all keys are positive and strictly increasing with recency, and
the window never exceeds 800 entries. -/
theorem C5_window_shape (all_commands : List String) (hne : all_commands ≠ []) :
    (window_entries all_commands).length = min all_commands.length 800
    ∧ (window_entries all_commands).map Prod.fst
        = (List.range (min all_commands.length 800)).map
            (fun k => max 1 (all_commands.length - 800 + 1) + k)
    ∧ List.Pairwise (fun a b => a < b) ((window_entries all_commands).map Prod.fst)
    ∧ (∀ p ∈ window_entries all_commands, 0 < p.1)
    ∧ ((window_entries all_commands).map Prod.fst).getLast? = some all_commands.length
    ∧ (window_entries all_commands).length ≤ 800 := by
  have hdrop : (all_commands.drop (all_commands.length - 800)).length
      = min all_commands.length 800 := by
    rw [List.length_drop]
    omega
  have hkeys : (window_entries all_commands).map Prod.fst
      = (List.range (min all_commands.length 800)).map
          (fun k => max 1 (all_commands.length - 800 + 1) + k) := by
    unfold window_entries
    rw [window_entries_from_map_fst, hdrop]
  have hlength : (window_entries all_commands).length = min all_commands.length 800 := by
    unfold window_entries
    rw [window_entries_from_length, hdrop]
  have hpos : 0 < all_commands.length :=
    List.length_pos.2 hne
  refine ⟨hlength, hkeys, ?_, ?_, ?_, by rw [hlength]; omega⟩
  · rw [hkeys]
    exact List.Pairwise.map _ (fun a b hab => by omega)
      (List.pairwise_lt_range (min all_commands.length 800))
  · intro p hp
    have hmem : p.1 ∈ (window_entries all_commands).map Prod.fst :=
      List.mem_map_of_mem Prod.fst hp
    rw [hkeys] at hmem
    obtain ⟨k, _, hk⟩ := List.mem_map.1 hmem
    omega
  · obtain ⟨m, hm⟩ : ∃ m, min all_commands.length 800 = m + 1 :=
      ⟨min all_commands.length 800 - 1, by omega⟩
    rw [hkeys, hm, List.range_succ, List.map_append]
    simp only [List.map_cons, List.map_nil]
    rw [List.getLast?_concat]
    refine congrArg some ?_
    omega

/-- C5 witness: the window over a concrete two-command history. -/
theorem C5_window_shape_witness :
    (["alpha one", "beta two"] : List String) ≠ []
    ∧ (window_entries ["alpha one", "beta two"]).length
        = min (["alpha one", "beta two"] : List String).length 800
    ∧ ((window_entries ["alpha one", "beta two"]).map Prod.fst).getLast?
        = some (["alpha one", "beta two"] : List String).length :=
  ⟨by decide,
   (C5_window_shape ["alpha one", "beta two"] (by decide)).1,
   (C5_window_shape ["alpha one", "beta two"] (by decide)).2.2.2.2.1⟩

theorem run_sync_commit (reSearch : String → String → Bool) (md5 : String → String)
    (cfg : SyncConfig) (now cwd : String) (t : Nat → ItemResponse) (limit : Nat)
    (force : Bool) (home : List FileState) (session : List String) (ledger : LedgerFile)
    (hdry : cfg.dry_run = false)
    (hne : sync_new_commands reSearch md5 cfg now cwd limit force home session ledger ≠ [])
    (hsucc : send_commands_to_seanstash cfg.dry_run cfg.batch_size t
        ((sync_new_commands reSearch md5 cfg now cwd limit force home session ledger).map
          CommandRecord.command) = true) :
    run_sync reSearch md5 cfg now cwd t limit force home session ledger
      = save_sent_history
          ((if force then (∅ : Finset String) else load_sent_history ledger)
            ∪ ((sync_new_commands reSearch md5 cfg now cwd limit force home session ledger).map
                CommandRecord.hash).toFinset) := by
  have hempty : (sync_new_commands reSearch md5 cfg now cwd limit force home session
      ledger).isEmpty = false := by
    cases h : sync_new_commands reSearch md5 cfg now cwd limit force home session ledger with
    | nil => exact absurd h hne
    | cons a l => rfl
  rw [hdry] at hsucc
  unfold run_sync
  simp only [hempty, Bool.false_eq_true, if_false, hdry, Bool.not_false, Bool.and_true,
    hsucc, if_true]

theorem run_sync_no_commit_of_not_success (reSearch : String → String → Bool)
    (md5 : String → String) (cfg : SyncConfig) (now cwd : String) (t : Nat → ItemResponse)
    (limit : Nat) (force : Bool) (home : List FileState) (session : List String)
    (ledger : LedgerFile)
    (hsucc : send_commands_to_seanstash cfg.dry_run cfg.batch_size t
        ((sync_new_commands reSearch md5 cfg now cwd limit force home session ledger).map
          CommandRecord.command) = false) :
    run_sync reSearch md5 cfg now cwd t limit force home session ledger = ledger := by
  unfold run_sync
  simp [hsucc]

theorem sync_new_commands_eq_filter (reSearch : String → String → Bool) (md5 : String → String)
    (cfg : SyncConfig) (now cwd : String) (limit : Nat) (home : List FileState)
    (session : List String) (ledger : LedgerFile) :
    sync_new_commands reSearch md5 cfg now cwd limit false home session ledger
      = (sync_filtered_commands reSearch md5 cfg now cwd limit home session).filter
          (fun c => decide (c.hash ∉ load_sent_history ledger)) := rfl

theorem sync_filtered_map_hash (reSearch : String → String → Bool) (md5 : String → String)
    (cfg : SyncConfig) (now1 cwd1 now2 cwd2 : String) (limit : Nat) (home : List FileState)
    (session : List String) :
    (sync_filtered_commands reSearch md5 cfg now1 cwd1 limit home session).map
        CommandRecord.hash
      = (sync_filtered_commands reSearch md5 cfg now2 cwd2 limit home session).map
          CommandRecord.hash :=
  filter_commands_map_hash reSearch md5 cfg now1 cwd1 now2 cwd2
    (pyDedup (get_shell_history limit home ++ session))

/-- C1 counterexample to the claim as stated: a run with force=true whose
delivery succeeds and whose dry-run flag is off overwrites the persisted
ledger with only this run's hashes, so the previously stored hash "oldhash"
is dropped and the post-run set is not a superset of the pre-run set. -/
theorem C1_counterexample :
    send_commands_to_seanstash exCfg.dry_run exCfg.batch_size exT200
      ((sync_new_commands exRe exMd5 exCfg "t1" "d" 50 true exHome []
          (LedgerFile.stored {"oldhash"})).map CommandRecord.command) = true
    ∧ exCfg.dry_run = false
    ∧ "oldhash" ∈ load_sent_history (LedgerFile.stored {"oldhash"})
    ∧ "oldhash" ∉ load_sent_history (run_sync exRe exMd5 exCfg "t1" "d" exT200 50 true exHome []
        (LedgerFile.stored {"oldhash"})) := by decide

/-- C1 (amended): for every run with force=false whose delivery phase reports
success and whose dry-run flag is off, the persisted set of sent hashes after
the run is a superset of the persisted set before the run: without force,
hashes are only added, never removed.  (A successful forced non-dry run
instead replaces the persisted set with exactly this run's hashes.) -/
theorem C1_ledger_monotonic (reSearch : String → String → Bool) (md5 : String → String)
    (cfg : SyncConfig) (now cwd : String) (t : Nat → ItemResponse) (limit : Nat)
    (force : Bool) (home : List FileState) (session : List String) (ledger : LedgerFile)
    (hforce : force = false) (hdry : cfg.dry_run = false)
    (hsucc : send_commands_to_seanstash cfg.dry_run cfg.batch_size t
        ((sync_new_commands reSearch md5 cfg now cwd limit force home session ledger).map
          CommandRecord.command) = true) :
    load_sent_history ledger
      ⊆ load_sent_history (run_sync reSearch md5 cfg now cwd t limit force home session ledger) := by
  subst hforce
  by_cases hne : sync_new_commands reSearch md5 cfg now cwd limit false home session ledger = []
  · have hpost : run_sync reSearch md5 cfg now cwd t limit false home session ledger = ledger := by
      unfold run_sync
      simp [hne]
    rw [hpost]
  · rw [run_sync_commit reSearch md5 cfg now cwd t limit false home session ledger hdry hne hsucc]
    show load_sent_history ledger ⊆ load_sent_history ledger ∪ _
    exact Finset.subset_union_left

/-- C1 witness: a concrete successful non-forced run grows the stored ledger. -/
theorem C1_ledger_monotonic_witness :
    send_commands_to_seanstash exCfg.dry_run exCfg.batch_size exT200
      ((sync_new_commands exRe exMd5 exCfg "t1" "d" 50 false exHome []
          (LedgerFile.stored {"oldhash"})).map CommandRecord.command) = true
    ∧ load_sent_history (LedgerFile.stored {"oldhash"})
        ⊆ load_sent_history (run_sync exRe exMd5 exCfg "t1" "d" exT200 50 false exHome []
            (LedgerFile.stored {"oldhash"})) :=
  ⟨by decide,
   C1_ledger_monotonic exRe exMd5 exCfg "t1" "d" exT200 50 false exHome []
     (LedgerFile.stored {"oldhash"}) rfl rfl (by decide)⟩

/-- C2: for a non-dry-run delivery whose batch loop raises no transport
exception and reports success count sc over the run's new commands: if at
least one item succeeded (sc > 0) the run commits the ledger with the hashes
of ALL attempted records, soft-failed ones included, while if zero items
succeeded (sc = 0) the ledger file is left untouched. -/
theorem C2_partial_batch_commit (reSearch : String → String → Bool) (md5 : String → String)
    (cfg : SyncConfig) (now cwd : String) (t : Nat → ItemResponse) (limit : Nat)
    (force : Bool) (home : List FileState) (session : List String) (ledger : LedgerFile)
    (sc : Nat) (hdry : cfg.dry_run = false)
    (hnoexn : sendAllBatches t (chunkList cfg.batch_size
        ((sync_new_commands reSearch md5 cfg now cwd limit force home session ledger).map
          CommandRecord.command)) 0 0 = some sc) :
    (0 < sc → run_sync reSearch md5 cfg now cwd t limit force home session ledger
        = save_sent_history
            ((if force then (∅ : Finset String) else load_sent_history ledger)
              ∪ ((sync_new_commands reSearch md5 cfg now cwd limit force home session
                  ledger).map CommandRecord.hash).toFinset))
    ∧ (sc = 0 → run_sync reSearch md5 cfg now cwd t limit force home session ledger
        = ledger) := by
  by_cases hne : sync_new_commands reSearch md5 cfg now cwd limit force home session ledger = []
  · have hsc : sc = 0 := by
      rw [hne] at hnoexn
      simp only [List.map_nil] at hnoexn
      have hnil : sendAllBatches t (chunkList cfg.batch_size ([] : List String)) 0 0
          = some 0 := rfl
      rw [hnil] at hnoexn
      exact (Option.some.inj hnoexn).symm
    constructor
    · intro h
      omega
    · intro _
      unfold run_sync
      simp [hne]
  · have hempty : ((sync_new_commands reSearch md5 cfg now cwd limit force home session
        ledger).map CommandRecord.command).isEmpty = false := by
      cases h : sync_new_commands reSearch md5 cfg now cwd limit force home session ledger with
      | nil => exact absurd h hne
      | cons a l => rfl
    have hsend : send_commands_to_seanstash cfg.dry_run cfg.batch_size t
        ((sync_new_commands reSearch md5 cfg now cwd limit force home session ledger).map
          CommandRecord.command) = decide (0 < sc) := by
      rw [hdry]
      simp only [send_commands_to_seanstash, hempty, Bool.false_eq_true, if_false, hnoexn]
    constructor
    · intro hsc
      refine run_sync_commit reSearch md5 cfg now cwd t limit force home session ledger
        hdry hne ?_
      rw [hsend]
      simpa using hsc
    · intro hsc
      refine run_sync_no_commit_of_not_success reSearch md5 cfg now cwd t limit force home
        session ledger ?_
      rw [hsend, hsc]
      rfl

/-- C2 witness: a batch of two where the first item succeeds (201) and the
second soft-fails (500) still commits both hashes to the ledger. -/
theorem C2_partial_batch_commit_witness :
    exCfg.dry_run = false
    ∧ sendAllBatches exTmix (chunkList exCfg.batch_size
        ((sync_new_commands exRe exMd5 exCfg "t1" "d" 50 false exHome []
            LedgerFile.missing).map CommandRecord.command)) 0 0 = some 1
    ∧ (0 < 1 → run_sync exRe exMd5 exCfg "t1" "d" exTmix 50 false exHome [] LedgerFile.missing
        = save_sent_history
            ((if false then (∅ : Finset String) else load_sent_history LedgerFile.missing)
              ∪ ((sync_new_commands exRe exMd5 exCfg "t1" "d" 50 false exHome []
                  LedgerFile.missing).map CommandRecord.hash).toFinset)) :=
  ⟨rfl, by decide,
   (C2_partial_batch_commit exRe exMd5 exCfg "t1" "d" exTmix 50 false exHome []
      LedgerFile.missing 1 rfl (by decide)).1⟩

/-- C3 counterexample to the claim as stated: status 204 lies in the 2xx
range, yet the delivery loop does not count the item as succeeded, because
the source only accepts the codes 200 and 201. -/
theorem C3_counterexample :
    sendBatchItems (fun _ => ItemResponse.status 204) ["cmd one"] 0 0 = some (1, 0)
    ∧ 200 ≤ 204 ∧ 204 < 300
    ∧ isSuccessStatus (ItemResponse.status 204) = false := by decide

/-- C3 (amended): an item is counted as succeeded iff its status code is 200
or 201; every other status response — 401 and even other 2xx codes included —
is a soft failure that does not abort the remaining items or batches: with no
transport exception every item is attempted and the loop returns exactly the
count of 200/201 responses. -/
theorem C3_success_criterion (bs : Nat) (t : Nat → ItemResponse) (cmds : List String)
    (hbs : 0 < bs) (hne : cmds ≠ [])
    (hnoexn : ∀ i, i < cmds.length → t i ≠ ItemResponse.exn) :
    sendAllBatches t (chunkList bs cmds) 0 0 = some (successCount t 0 cmds.length)
    ∧ send_commands_to_seanstash false bs t cmds
        = decide (0 < successCount t 0 cmds.length) := by
  have hsum : ((chunkList bs cmds).map List.length).sum = cmds.length := by
    unfold chunkList
    exact chunkFuel_sum_length bs hbs cmds.length cmds (Nat.le_refl _)
  have hmain : sendAllBatches t (chunkList bs cmds) 0 0
      = some (0 + successCount t 0 (((chunkList bs cmds).map List.length).sum)) := by
    refine sendAllBatches_no_exn t (chunkList bs cmds) 0 0 ?_
    intro j hj
    rw [hsum] at hj
    simpa using hnoexn j hj
  rw [hsum, Nat.zero_add] at hmain
  have hempty : cmds.isEmpty = false := by
    cases cmds with
    | nil => exact absurd rfl hne
    | cons a l => rfl
  refine ⟨hmain, ?_⟩
  simp only [send_commands_to_seanstash, hempty, Bool.false_eq_true, if_false, hmain]

/-- C3 witness: three items answered 200, 401, 204 are all attempted and
exactly one is counted as succeeded. -/
theorem C3_success_criterion_witness :
    (0 : Nat) < 2 ∧ (["aa1", "bb2", "cc3"] : List String) ≠ []
    ∧ (∀ i, i < (["aa1", "bb2", "cc3"] : List String).length → exT3 i ≠ ItemResponse.exn)
    ∧ sendAllBatches exT3 (chunkList 2 ["aa1", "bb2", "cc3"]) 0 0
        = some (successCount exT3 0 (["aa1", "bb2", "cc3"] : List String).length) :=
  ⟨by decide, by decide, by decide,
   (C3_success_criterion 2 exT3 ["aa1", "bb2", "cc3"] (by decide) (by decide) (by decide)).1⟩

/-- C4 counterexample to the claim as stated: for the reversed range spec
"!3-1" over a window containing lines 1-3, both bounds parse as integers and
every line of the range is present in the window, yet the code returns the
empty (failed) result: range(3, 1+1) is empty, so a reversed range is never
emitted in ascending order. -/
theorem C4_counterexample :
    get_specific_history_commands "!3-1"
      (FileState.readable ["a one", "b two", "c three"]) = []
    ∧ parseRangeSpec (pyLstripBang "!3-1") = some (3, 1)
    ∧ dictGet (window_entries ((["a one", "b two", "c three"] : List String).filterMap
        parseHistoryLine)) 1 = some "a one"
    ∧ dictGet (window_entries ((["a one", "b two", "c three"] : List String).filterMap
        parseHistoryLine)) 3 = some "c three" := by decide

/-- C4 (amended): for a range spec start-end with both bounds parsing as
integers over a non-empty parsed history, resolution returns exactly the
window commands whose line number lies in the interval from start to end, in
ascending window order, skipping absent line numbers (so the result is empty
exactly when no line of the interval is present); when start > end the
interval is empty and the call always returns the empty (failed) result
instead of reordering the bounds. -/
theorem C4_range_resolution (lines : List String) (spec : String) (s e : Int)
    (hdash : (pyLstripBang spec).data.any (fun c => c == '-') = true)
    (hparse : parseRangeSpec (pyLstripBang spec) = some (s, e))
    (hne : (lines.filterMap parseHistoryLine).isEmpty = false) :
    get_specific_history_commands spec (FileState.readable lines)
      = entriesInRange s e (window_entries (lines.filterMap parseHistoryLine))
    ∧ (e < s → get_specific_history_commands spec (FileState.readable lines) = []) := by
  have hres : get_specific_history_commands spec (FileState.readable lines)
      = (intRange s e).filterMap
          (dictGet (window_entries (lines.filterMap parseHistoryLine))) := by
    simp only [get_specific_history_commands, hne, Bool.false_eq_true, if_false, hdash,
      if_true, hparse]
  have hmain := range_filterMap_dictGet e ((e + 1 - s).toNat) s rfl
    (max 1 ((lines.filterMap parseHistoryLine).length - 800 + 1))
    ((lines.filterMap parseHistoryLine).drop ((lines.filterMap parseHistoryLine).length - 800))
  constructor
  · rw [hres]
    exact hmain
  · intro hgt
    rw [hres, intRange_nil_of_gt s e hgt]
    rfl

/-- C4 witness: resolving "!2-3" over a three-line window returns the window
commands with line numbers 2 and 3 in ascending order. -/
theorem C4_range_resolution_witness :
    parseRangeSpec (pyLstripBang "!2-3") = some (2, 3)
    ∧ get_specific_history_commands "!2-3"
        (FileState.readable ["a one", "b two", "c three"])
      = entriesInRange 2 3 (window_entries ((["a one", "b two", "c three"] : List String).filterMap
          parseHistoryLine)) :=
  ⟨by decide,
   (C4_range_resolution ["a one", "b two", "c three"] "!2-3" 2 3
      (by decide) (by decide) (by decide)).1⟩

/-- C7: idempotence of the sync pipeline — if a first run with force=false
and dry-run off completes with a successful delivery, then a second run over
the identical history and session input with force=false partitions every
filtered record as already sent: zero new commands remain to send.  The
second run may observe a different clock and working directory; hashes do not
depend on them. -/
theorem C7_idempotence (reSearch : String → String → Bool) (md5 : String → String)
    (cfg : SyncConfig) (now1 cwd1 now2 cwd2 : String) (t : Nat → ItemResponse)
    (limit : Nat) (home : List FileState) (session : List String) (ledger : LedgerFile)
    (hdry : cfg.dry_run = false)
    (hsucc : send_commands_to_seanstash cfg.dry_run cfg.batch_size t
        ((sync_new_commands reSearch md5 cfg now1 cwd1 limit false home session ledger).map
          CommandRecord.command) = true) :
    sync_new_commands reSearch md5 cfg now2 cwd2 limit false home session
      (run_sync reSearch md5 cfg now1 cwd1 t limit false home session ledger) = [] := by
  rw [sync_new_commands_eq_filter]
  refine filter_eq_nil_of_forall ?_
  intro c hc
  have hmem1 : c.hash ∈ (sync_filtered_commands reSearch md5 cfg now1 cwd1 limit home
      session).map CommandRecord.hash := by
    rw [sync_filtered_map_hash reSearch md5 cfg now1 cwd1 now2 cwd2 limit home session]
    exact List.mem_map_of_mem CommandRecord.hash hc
  obtain ⟨r, hrF1, hrhash⟩ := List.mem_map.1 hmem1
  have hgoal : c.hash ∈ load_sent_history
      (run_sync reSearch md5 cfg now1 cwd1 t limit false home session ledger) := by
    by_cases hN : sync_new_commands reSearch md5 cfg now1 cwd1 limit false home session
        ledger = []
    · have hpost : run_sync reSearch md5 cfg now1 cwd1 t limit false home session ledger
          = ledger := by
        unfold run_sync
        simp [hN]
      rw [hpost]
      have hN2 : (sync_filtered_commands reSearch md5 cfg now1 cwd1 limit home
          session).filter (fun x => decide (x.hash ∉ load_sent_history ledger)) = [] := by
        rw [← sync_new_commands_eq_filter]
        exact hN
      have hr := forall_of_filter_eq_nil hN2 r hrF1
      rw [decide_eq_false_iff_not, Decidable.not_not] at hr
      rw [← hrhash]
      exact hr
    · rw [run_sync_commit reSearch md5 cfg now1 cwd1 t limit false home session ledger
        hdry hN hsucc]
      show c.hash ∈ load_sent_history ledger ∪ _
      rw [Finset.mem_union]
      by_cases hmem : r.hash ∈ load_sent_history ledger
      · left
        rw [← hrhash]
        exact hmem
      · right
        rw [List.mem_toFinset]
        refine List.mem_map.2 ⟨r, ?_, hrhash⟩
        rw [sync_new_commands_eq_filter]
        refine List.mem_filter.2 ⟨hrF1, ?_⟩
        simp [hmem]
  simp only [hgoal, not_true_eq_false, decide_False]

/-- C7 witness: after a concrete successful first run against an empty
ledger, the second run over the same history finds nothing new to send. -/
theorem C7_idempotence_witness :
    exCfg.dry_run = false
    ∧ send_commands_to_seanstash exCfg.dry_run exCfg.batch_size exT200
        ((sync_new_commands exRe exMd5 exCfg "t1" "d" 50 false exHome []
            LedgerFile.missing).map CommandRecord.command) = true
    ∧ sync_new_commands exRe exMd5 exCfg "t2" "d2" 50 false exHome []
        (run_sync exRe exMd5 exCfg "t1" "d" exT200 50 false exHome [] LedgerFile.missing)
      = [] :=
  ⟨rfl, by decide,
   C7_idempotence exRe exMd5 exCfg "t1" "d" "t2" "d2" exT200 50 exHome []
     LedgerFile.missing rfl (by decide)⟩
